import Mathlib

/-!
# Verification of the bao tree-hash core (`src/hash.rs`)

A shallow embedding of the hashing engine of the bao repository, together
with theorems checking the natural-language specification against it.

Modelling conventions:

* Byte strings are `List Nat` (each entry one byte; byte-ness is irrelevant
  to the claims checked here).
* The Blake2b primitive is opaque in the source (`blake2b_simd`), so it is
  modelled by an arbitrary compression function `b2b : Bytes → Bool → Hash`
  taking the bytes fed into the state and the last-node flag.  The
  `blake2b_simd::State` API surface used by the code (`update`,
  `set_last_node`, `finalize`) is embedded as explicit state passing.
* Rust panics (`unwrap` on an empty pop, indexing out of bounds,
  `ArrayVec::push` at capacity) are modelled as `none : Option _`.
* `u64` quantities are `Nat`; theorems that depend on the 64-bit range
  carry explicit `< 2 ^ 64` hypotheses.  The `u64` intrinsics
  `leading_zeros` and `count_ones` are embedded as structural recursions
  with 64 halving steps, which agrees with the intrinsics on all `u64`
  values.
* The subtree stack (`ArrayVec<[Hash; MAX_DEPTH]>`, pushed and popped at
  the back) is a `List Hash` stored top-first: `ArrayVec::push` is `cons`,
  `ArrayVec::pop` takes the head, and the Rust index `[0]` is the last
  element.  The capacity check of `ArrayVec::push` is explicit in
  `push_subtree`.
-/

namespace Bao

/-- Byte strings. -/
abbrev Bytes : Type := List Nat

/-- Digests.  The source fixes 32 bytes; the length plays no role in the
claims, so a digest is just the byte string the primitive returns. -/
abbrev Hash : Type := Bytes

/-- Source: `pub const HASH_SIZE: usize = 32` -/
def HASH_SIZE : Nat := 32

/-- Source: `pub const PARENT_SIZE: usize = 2 * HASH_SIZE` -/
def PARENT_SIZE : Nat := 2 * HASH_SIZE

/-- Source: `pub const HEADER_SIZE: usize = 8` -/
def HEADER_SIZE : Nat := 8

/-- Source: `pub const CHUNK_SIZE: usize = 4096` -/
def CHUNK_SIZE : Nat := 4096

/-- Source: `pub const MAX_DEPTH: usize = 64` -/
def MAX_DEPTH : Nat := 64

/-- Source: `pub const MAX_SINGLE_THREADED: usize = 4 * CHUNK_SIZE` -/
def MAX_SINGLE_THREADED : Nat := 4 * CHUNK_SIZE

/-- The type of the opaque Blake2b-256 compression: bytes fed so far and
the last-node flag, to the digest.  (`blake2b_simd` with
`hash_length(HASH_SIZE)`.) -/
def B2b : Type := Bytes → Bool → Hash

/-- Source: `encode_len`: the total length as an unsigned 64-bit little-endian
integer (`LittleEndian::write_u64`). -/
def encode_len (len : Nat) : Bytes :=
  [len % 256, len / 256 % 256, len / 256 ^ 2 % 256, len / 256 ^ 3 % 256,
   len / 256 ^ 4 % 256, len / 256 ^ 5 % 256, len / 256 ^ 6 % 256,
   len / 256 ^ 7 % 256]

/-- Source: `decode_len`: `LittleEndian::read_u64` on an 8-byte buffer. -/
def decode_len (bytes : Bytes) : Nat :=
  bytes.getD 0 0 + 256 * bytes.getD 1 0 + 256 ^ 2 * bytes.getD 2 0 +
    256 ^ 3 * bytes.getD 3 0 + 256 ^ 4 * bytes.getD 4 0 +
    256 ^ 5 * bytes.getD 5 0 + 256 ^ 6 * bytes.getD 6 0 +
    256 ^ 7 * bytes.getD 7 0

/-- The `blake2b_simd::State` surface used by the source: the bytes fed so
far and the last-node flag. -/
structure B2State where
  fed : Bytes
  lastNode : Bool

/-- Source: `new_blake2b_state()`: a fresh state (no bytes fed, flag unset). -/
def new_blake2b_state : B2State := ⟨[], false⟩

/-- Source: `State::update`. -/
def B2State.update (st : B2State) (bytes : Bytes) : B2State :=
  ⟨st.fed ++ bytes, st.lastNode⟩

/-- Source: `State::set_last_node`. -/
def B2State.set_last_node (st : B2State) (b : Bool) : B2State :=
  ⟨st.fed, b⟩

/-- Source: `State::finalize`: the opaque compression applied to everything fed. -/
def B2State.finalize (b2b : B2b) (st : B2State) : Hash :=
  b2b st.fed st.lastNode

/-- Source: `enum Finalization { NotRoot, Root(u64) }` -/
inductive Finalization where
  | NotRoot : Finalization
  | Root (root_len : Nat) : Finalization

/-- Source: `finalize_hash`: for the root, feed the length suffix and set the
last-node flag; then extract the digest. -/
def finalize_hash (b2b : B2b) (st : B2State) (finalization : Finalization) : Hash :=
  match finalization with
  | .Root root_len => ((st.update (encode_len root_len)).set_last_node true).finalize b2b
  | .NotRoot => st.finalize b2b

/-- Source: `hash_node`: feed the chunk into a fresh state and finalize. -/
def hash_node (b2b : B2b) (chunk : Bytes) (finalization : Finalization) : Hash :=
  finalize_hash b2b (new_blake2b_state.update chunk) finalization

/-- Source: `parent_hash`: feed the left then the right digest and finalize. -/
def parent_hash (b2b : B2b) (left_hash right_hash : Hash) (finalization : Finalization) : Hash :=
  finalize_hash b2b ((new_blake2b_state.update left_hash).update right_hash) finalization

/-- Fuelled recursion: 64 halving steps of a binary length count: `bits64_helper 64 n` is the
bit length of `n` for any `n < 2 ^ 64`, so `64 - bits64_helper 64 n` is
Rust's `u64::leading_zeros`. -/
def bits64_helper : Nat → Nat → Nat
  | 0, _ => 0
  | fuel + 1, n => if n = 0 then 0 else bits64_helper fuel (n / 2) + 1

/-- Source: `u64::leading_zeros`. -/
def u64_leading_zeros (n : Nat) : Nat := 64 - bits64_helper 64 n

/-- Source: `largest_power_of_two`: `1 << (63 - n.leading_zeros())`. -/
def largest_power_of_two (n : Nat) : Nat :=
  1 <<< (63 - u64_leading_zeros n)

/-- Source: `left_len`: subtract one to reserve a byte for the right side, count
full chunks, and take the largest power of two of them. -/
def left_len (content_len : Nat) : Nat :=
  largest_power_of_two ((content_len - 1) / CHUNK_SIZE) * CHUNK_SIZE

/-- Fuelled recursion: 64 halving steps of a set-bit count: `count_ones_helper 64 n` is
Rust's `u64::count_ones` for any `n < 2 ^ 64`. -/
def count_ones_helper : Nat → Nat → Nat
  | 0, _ => 0
  | fuel + 1, n => n % 2 + count_ones_helper fuel (n / 2)

/-- Source: `u64::count_ones`. -/
def count_ones (n : Nat) : Nat := count_ones_helper 64 n

/-! ## Arithmetic facts about the geometry helpers -/

lemma CHUNK_SIZE_pos : 0 < CHUNK_SIZE := by norm_num [CHUNK_SIZE]

lemma bits64_helper_zero (fuel : Nat) : bits64_helper fuel 0 = 0 := by
  cases fuel <;> simp [bits64_helper]

lemma bits64_helper_le (fuel : Nat) : ∀ n, bits64_helper fuel n ≤ fuel := by
  induction fuel with
  | zero => intro n; simp [bits64_helper]
  | succ f ih =>
    intro n
    simp only [bits64_helper]
    split
    · omega
    · have := ih (n / 2); omega

/-- On positive inputs below `2 ^ fuel`, `bits64_helper fuel` is the exact
binary bit length. -/
lemma bits64_helper_char (fuel : Nat) : ∀ n, 1 ≤ n → n < 2 ^ fuel →
    1 ≤ bits64_helper fuel n ∧ 2 ^ (bits64_helper fuel n - 1) ≤ n ∧
      n < 2 ^ bits64_helper fuel n := by
  induction fuel with
  | zero => intro n h1 h2; simp at h2; omega
  | succ f ih =>
    intro n h1 h2
    have hne : n ≠ 0 := by omega
    simp only [bits64_helper, if_neg hne]
    by_cases hn1 : n = 1
    · subst hn1
      norm_num [bits64_helper_zero]
    · have h12 : 1 ≤ n / 2 := by omega
      have hlt : n / 2 < 2 ^ f := by
        rw [pow_succ] at h2; omega
      obtain ⟨hb1, hb2, hb3⟩ := ih (n / 2) h12 hlt
      refine ⟨by omega, ?_, ?_⟩
      · have he : 2 ^ (bits64_helper f (n / 2) + 1 - 1) = 2 * 2 ^ (bits64_helper f (n / 2) - 1) := by
          rw [show bits64_helper f (n / 2) + 1 - 1 = (bits64_helper f (n / 2) - 1) + 1 by omega,
            pow_succ]
          ring
        rw [he]; omega
      · rw [pow_succ]; omega

lemma bits64_helper_of_ge (fuel : Nat) : ∀ n, 2 ^ fuel ≤ n → bits64_helper fuel n = fuel := by
  induction fuel with
  | zero => intro n _; rfl
  | succ f ih =>
    intro n h
    have h2 : 2 ^ f ≤ n / 2 := by rw [pow_succ] at h; omega
    have hne : n ≠ 0 := by
      have := Nat.one_le_two_pow (n := f + 1); omega
    simp only [bits64_helper, if_neg hne, ih (n / 2) h2]

lemma lpot_char (n : Nat) (h1 : 1 ≤ n) (h2 : n < 2 ^ 64) :
    largest_power_of_two n = 2 ^ (bits64_helper 64 n - 1) := by
  obtain ⟨hb1, _, _⟩ := bits64_helper_char 64 n h1 h2
  have hle := bits64_helper_le 64 n
  unfold largest_power_of_two u64_leading_zeros
  rw [Nat.one_shiftLeft]
  congr 1
  omega

lemma lpot_bracket (n : Nat) (h1 : 1 ≤ n) (h2 : n < 2 ^ 64) :
    largest_power_of_two n ≤ n ∧ n < 2 * largest_power_of_two n := by
  obtain ⟨hb1, hb2, hb3⟩ := bits64_helper_char 64 n h1 h2
  rw [lpot_char n h1 h2]
  obtain ⟨b, hb⟩ : ∃ b, bits64_helper 64 n = b + 1 := ⟨bits64_helper 64 n - 1, by omega⟩
  rw [hb] at hb2 hb3 ⊢
  simp only [Nat.add_sub_cancel] at hb2 ⊢
  rw [pow_succ] at hb3
  omega

lemma lpot_is_pow (n : Nat) : ∃ k, largest_power_of_two n = 2 ^ k :=
  ⟨63 - u64_leading_zeros n, Nat.one_shiftLeft _⟩

lemma lpot_pos (n : Nat) : 0 < largest_power_of_two n := by
  obtain ⟨k, hk⟩ := lpot_is_pow n
  rw [hk]
  exact Nat.pos_pow_of_pos k (by norm_num)

lemma lpot_le (n : Nat) (h1 : 1 ≤ n) : largest_power_of_two n ≤ n := by
  by_cases h2 : n < 2 ^ 64
  · exact (lpot_bracket n h1 h2).1
  · have hb : bits64_helper 64 n = 64 := bits64_helper_of_ge 64 n (by omega)
    unfold largest_power_of_two u64_leading_zeros
    rw [hb, Nat.one_shiftLeft]
    norm_num at h2 ⊢
    omega

/-- The greatest-power property in bracket form. -/
lemma lpot_of_bracket (a n : Nat) (hl : 2 ^ a ≤ n) (hr : n < 2 ^ (a + 1))
    (h64 : n < 2 ^ 64) : largest_power_of_two n = 2 ^ a := by
  have h1 : 1 ≤ n := le_trans Nat.one_le_two_pow hl
  obtain ⟨hb1, hb2, hb3⟩ := bits64_helper_char 64 n h1 h64
  rw [lpot_char n h1 h64]
  rcases Nat.lt_trichotomy (bits64_helper 64 n - 1) a with h | h | h
  · exfalso
    have : 2 ^ bits64_helper 64 n ≤ 2 ^ a := Nat.pow_le_pow_right (by norm_num) (by omega)
    omega
  · rw [h]
  · exfalso
    have : 2 ^ (a + 1) ≤ 2 ^ (bits64_helper 64 n - 1) :=
      Nat.pow_le_pow_right (by norm_num) (by omega)
    omega

lemma left_len_pos (n : Nat) : 0 < left_len n := by
  unfold left_len
  exact Nat.mul_pos (lpot_pos _) CHUNK_SIZE_pos

lemma left_len_lt (n : Nat) (h : CHUNK_SIZE < n) : left_len n < n := by
  unfold left_len
  have hfc1 : 1 ≤ (n - 1) / CHUNK_SIZE := by
    rw [Nat.le_div_iff_mul_le CHUNK_SIZE_pos]
    omega
  have h1 := lpot_le ((n - 1) / CHUNK_SIZE) hfc1
  have h2 : (n - 1) / CHUNK_SIZE * CHUNK_SIZE ≤ n - 1 := Nat.div_mul_le_self _ _
  have h3 := Nat.mul_le_mul_right CHUNK_SIZE h1
  omega

/-- The split point of a concatenation whose left part is a perfect
power-of-two number of chunks at least as long as the right part is
exactly the left part's length. -/
lemma left_len_split (a p q : Nat) (hp : p = 2 ^ a * CHUNK_SIZE) (hq1 : 1 ≤ q)
    (hq2 : q ≤ p) (hbound : p + q < 2 ^ 64) : left_len (p + q) = p := by
  unfold left_len
  have hfcl : 2 ^ a ≤ (p + q - 1) / CHUNK_SIZE := by
    rw [Nat.le_div_iff_mul_le CHUNK_SIZE_pos]
    omega
  have hfcr : (p + q - 1) / CHUNK_SIZE < 2 ^ (a + 1) := by
    rw [Nat.div_lt_iff_lt_mul CHUNK_SIZE_pos]
    have he : (2 : Nat) ^ (a + 1) * CHUNK_SIZE = 2 * p := by
      rw [hp, pow_succ]; ring
    omega
  have h64 : (p + q - 1) / CHUNK_SIZE < 2 ^ 64 := by
    have := Nat.div_le_self (p + q - 1) CHUNK_SIZE
    omega
  rw [lpot_of_bracket a _ hfcl hfcr h64, hp]

/-! ## Facts about the set-bit count -/

lemma count_ones_helper_zero (fuel : Nat) : count_ones_helper fuel 0 = 0 := by
  induction fuel with
  | zero => rfl
  | succ f ih => simp [count_ones_helper, ih]

lemma count_ones_helper_le (fuel : Nat) : ∀ n, count_ones_helper fuel n ≤ fuel := by
  induction fuel with
  | zero => intro n; simp [count_ones_helper]
  | succ f ih =>
    intro n
    simp only [count_ones_helper]
    have := ih (n / 2)
    omega

lemma count_ones_helper_stable (f : Nat) : ∀ g n, n < 2 ^ f → f ≤ g →
    count_ones_helper f n = count_ones_helper g n := by
  induction f with
  | zero =>
    intro g n h _
    have hn : n = 0 := by norm_num at h; omega
    subst hn
    rw [count_ones_helper_zero, count_ones_helper_zero]
  | succ f ih =>
    intro g n h hg
    obtain ⟨g', rfl⟩ : ∃ g', g = g' + 1 := ⟨g - 1, by omega⟩
    simp only [count_ones_helper]
    have hh : n / 2 < 2 ^ f := by rw [pow_succ] at h; omega
    rw [ih g' (n / 2) hh (by omega)]

/-- Adding a remainder strictly below a power of two to that power sets
exactly one more bit. -/
lemma count_pow_add (f : Nat) : ∀ c r, r < 2 ^ c → 2 ^ c + r < 2 ^ f →
    count_ones_helper f (2 ^ c + r) = 1 + count_ones_helper f r := by
  induction f with
  | zero =>
    intro c r _ h2
    rw [pow_zero] at h2
    have := Nat.one_le_two_pow (n := c)
    omega
  | succ f ih =>
    intro c r h1 h2
    match c with
    | 0 =>
      have hr : r = 0 := by rw [pow_zero] at h1; omega
      subst hr
      simp [count_ones_helper, count_ones_helper_zero]
    | c + 1 =>
      have hcc : (2 : Nat) ^ (c + 1) = 2 * 2 ^ c := by rw [pow_succ]; ring
      have hff : (2 : Nat) ^ (f + 1) = 2 * 2 ^ f := by rw [pow_succ]; ring
      simp only [count_ones_helper]
      have he : (2 ^ (c + 1) + r) % 2 = r % 2 := by omega
      have hd : (2 ^ (c + 1) + r) / 2 = 2 ^ c + r / 2 := by omega
      rw [he, hd, ih c (r / 2) (by omega) (by omega)]
      omega

/-- Adding a power of two sets at most one more bit. -/
lemma count_add_pow_le (f : Nat) : ∀ c x, x + 2 ^ c < 2 ^ f →
    count_ones_helper f (x + 2 ^ c) ≤ 1 + count_ones_helper f x := by
  induction f with
  | zero =>
    intro c x h
    rw [pow_zero] at h
    have := Nat.one_le_two_pow (n := c)
    omega
  | succ f ih =>
    intro c x h
    have hff : (2 : Nat) ^ (f + 1) = 2 * 2 ^ f := by rw [pow_succ]; ring
    match c with
    | 0 =>
      rw [pow_zero] at h
      simp only [count_ones_helper, pow_zero]
      rcases Nat.mod_two_eq_zero_or_one x with h0 | h1
      · have he : (x + 1) % 2 = 1 := by omega
        have hd : (x + 1) / 2 = x / 2 := by omega
        rw [he, hd]
        omega
      · have he : (x + 1) % 2 = 0 := by omega
        have hd : (x + 1) / 2 = x / 2 + 1 := by omega
        rw [he, hd]
        have := ih 0 (x / 2) (by rw [pow_zero]; omega)
        rw [pow_zero] at this
        omega
    | c + 1 =>
      have hcc : (2 : Nat) ^ (c + 1) = 2 * 2 ^ c := by rw [pow_succ]; ring
      simp only [count_ones_helper]
      have he : (x + 2 ^ (c + 1)) % 2 = x % 2 := by omega
      have hd : (x + 2 ^ (c + 1)) / 2 = x / 2 + 2 ^ c := by omega
      rw [he, hd]
      have := ih c (x / 2) (by omega)
      omega

lemma count_ones_zero : count_ones 0 = 0 := count_ones_helper_zero 64

lemma count_ones_pow (a : Nat) (h : a < 64) : count_ones (2 ^ a) = 1 := by
  unfold count_ones
  have hlt : (2 : Nat) ^ a < 2 ^ 64 := Nat.pow_lt_pow_right (by norm_num) h
  have := count_pow_add 64 a 0 (Nat.pos_pow_of_pos a (by norm_num)) (by omega)
  simpa [count_ones_helper_zero] using this

/-! ## The single-shot recursive hashers -/

/-- Source: `hash_recurse`: hash one chunk directly, or split at `left_len` and
hash a parent over the two recursive digests (children are never the
root). -/
def hash_recurse (b2b : B2b) (input : Bytes) (finalization : Finalization) : Hash :=
  if h : input.length ≤ CHUNK_SIZE then
    hash_node b2b input finalization
  else
    parent_hash b2b
      (hash_recurse b2b (input.take (left_len input.length)) .NotRoot)
      (hash_recurse b2b (input.drop (left_len input.length)) .NotRoot)
      finalization
termination_by input.length
decreasing_by
  · simp only [List.length_take]
    have h1 := left_len_lt input.length (by omega)
    have h2 := left_len_pos input.length
    omega
  · simp only [List.length_drop]
    have h1 := left_len_lt input.length (by omega)
    have h2 := left_len_pos input.length
    omega

/-- Source: `hash_recurse_rayon`: the same recursion, with the two children handed
to `rayon::join`.  The fork-join returns both results, so the data flow is
identical; only scheduling differs, which a pure embedding does not see. -/
def hash_recurse_rayon (b2b : B2b) (input : Bytes) (finalization : Finalization) : Hash :=
  if h : input.length ≤ CHUNK_SIZE then
    hash_node b2b input finalization
  else
    parent_hash b2b
      (hash_recurse_rayon b2b (input.take (left_len input.length)) .NotRoot)
      (hash_recurse_rayon b2b (input.drop (left_len input.length)) .NotRoot)
      finalization
termination_by input.length
decreasing_by
  · simp only [List.length_take]
    have h1 := left_len_lt input.length (by omega)
    have h2 := left_len_pos input.length
    omega
  · simp only [List.length_drop]
    have h1 := left_len_lt input.length (by omega)
    have h2 := left_len_pos input.length
    omega

/-- Source: `pub fn hash`: single-shot, serial below `MAX_SINGLE_THREADED` and
parallel above it, rooted at `Root(input.len())`. -/
def hash (b2b : B2b) (input : Bytes) : Hash :=
  if input.length ≤ MAX_SINGLE_THREADED then
    hash_recurse b2b input (.Root input.length)
  else
    hash_recurse_rayon b2b input (.Root input.length)

lemma hash_recurse_leaf (b2b : B2b) (input : Bytes) (f : Finalization)
    (h : input.length ≤ CHUNK_SIZE) : hash_recurse b2b input f = hash_node b2b input f := by
  rw [hash_recurse]
  exact dif_pos h

lemma hash_recurse_node (b2b : B2b) (input : Bytes) (f : Finalization)
    (h : CHUNK_SIZE < input.length) :
    hash_recurse b2b input f =
      parent_hash b2b (hash_recurse b2b (input.take (left_len input.length)) .NotRoot)
        (hash_recurse b2b (input.drop (left_len input.length)) .NotRoot) f := by
  conv_lhs => rw [hash_recurse]
  exact dif_neg (by omega)

lemma hash_recurse_rayon_leaf (b2b : B2b) (input : Bytes) (f : Finalization)
    (h : input.length ≤ CHUNK_SIZE) :
    hash_recurse_rayon b2b input f = hash_node b2b input f := by
  rw [hash_recurse_rayon]
  exact dif_pos h

lemma hash_recurse_rayon_node (b2b : B2b) (input : Bytes) (f : Finalization)
    (h : CHUNK_SIZE < input.length) :
    hash_recurse_rayon b2b input f =
      parent_hash b2b (hash_recurse_rayon b2b (input.take (left_len input.length)) .NotRoot)
        (hash_recurse_rayon b2b (input.drop (left_len input.length)) .NotRoot) f := by
  conv_lhs => rw [hash_recurse_rayon]
  exact dif_neg (by omega)

/-- The parallel recursion computes exactly the serial recursion. -/
lemma hash_recurse_rayon_eq (b2b : B2b) (input : Bytes) (f : Finalization) :
    hash_recurse_rayon b2b input f = hash_recurse b2b input f := by
  by_cases h : input.length ≤ CHUNK_SIZE
  · rw [hash_recurse_rayon_leaf b2b input f h, hash_recurse_leaf b2b input f h]
  · push_neg at h
    rw [hash_recurse_rayon_node b2b input f h, hash_recurse_node b2b input f h,
      hash_recurse_rayon_eq b2b (input.take (left_len input.length)) .NotRoot,
      hash_recurse_rayon_eq b2b (input.drop (left_len input.length)) .NotRoot]
termination_by input.length
decreasing_by
  · simp only [List.length_take]
    have h1 := left_len_lt input.length (by omega)
    have h2 := left_len_pos input.length
    omega
  · simp only [List.length_drop]
    have h1 := left_len_lt input.length (by omega)
    have h2 := left_len_pos input.length
    omega

lemma hash_eq_hash_recurse (b2b : B2b) (input : Bytes) :
    hash b2b input = hash_recurse b2b input (.Root input.length) := by
  unfold hash
  split
  · rfl
  · exact hash_recurse_rayon_eq b2b input _

/-- Splitting off a left part that is a perfect power-of-two number of
chunks, at least as long as the (nonempty) right part: the recursive hash
of the concatenation is the parent of the two recursive hashes. -/
lemma hash_recurse_split (b2b : B2b) (l r : Bytes) (f : Finalization) (a : Nat)
    (hl : l.length = 2 ^ a * CHUNK_SIZE) (hr1 : 1 ≤ r.length) (hr2 : r.length ≤ l.length)
    (hbound : l.length + r.length < 2 ^ 64) :
    hash_recurse b2b (l ++ r) f =
      parent_hash b2b (hash_recurse b2b l .NotRoot) (hash_recurse b2b r .NotRoot) f := by
  have hCH : CHUNK_SIZE ≤ 2 ^ a * CHUNK_SIZE :=
    Nat.le_mul_of_pos_left _ (Nat.pos_pow_of_pos a (by norm_num))
  have hlen : (l ++ r).length = l.length + r.length := List.length_append l r
  have hgt : CHUNK_SIZE < (l ++ r).length := by omega
  have hll : left_len ((l ++ r).length) = l.length := by
    rw [hlen]
    exact left_len_split a l.length r.length hl hr1 hr2 hbound
  rw [hash_recurse_node b2b (l ++ r) f hgt, hll, List.take_left' rfl, List.drop_left' rfl]

/-! ## The incremental merging state -/

/-- Source: `ParentNode`: the 64-byte concatenation `left || right` of the two
child digests, as `merge_inner` copies them out. -/
abbrev ParentNode : Type := Bytes

/-- Source: `struct State { subtrees: ArrayVec<[Hash; MAX_DEPTH]>, total_len: u64 }`.
The stack is stored top-first: `ArrayVec::push`/`pop` at the back become
`cons`/head here, and the Rust index `[0]` is the bottom (last) element.
The `ArrayVec` capacity check lives in `push_subtree`. -/
structure State where
  subtrees : List Hash
  total_len : Nat

/-- Source: `State::new()`. -/
def State.new : State := ⟨[], 0⟩

/-- Source: `State::merge_inner`: pop the right then the left child, push their
parent digest, and yield the parent node bytes.  A pop from a stack with
fewer than two digests is an `.unwrap()` failure. -/
def merge_inner (b2b : B2b) (st : State) (finalization : Finalization) :
    Option (State × ParentNode) :=
  match st.subtrees with
  | right_child :: left_child :: rest =>
      some (⟨parent_hash b2b left_child right_child finalization :: rest, st.total_len⟩,
        left_child ++ right_child)
  | _ => none

/-- Source: `State::needs_merge`: more stack entries than set bits in the chunk
count. -/
def needs_merge (st : State) : Bool :=
  st.subtrees.length > count_ones (st.total_len / CHUNK_SIZE)

lemma merge_inner_spec (b2b : B2b) (st st2 : State) (f : Finalization) (p : ParentNode)
    (h : merge_inner b2b st f = some (st2, p)) :
    st2.subtrees.length + 1 = st.subtrees.length ∧ st2.total_len = st.total_len := by
  rcases st with ⟨subs, tot⟩
  match subs with
  | [] => simp [merge_inner] at h
  | [x] => simp [merge_inner] at h
  | r :: l :: rest =>
    simp only [merge_inner, Option.some.injEq, Prod.mk.injEq] at h
    obtain ⟨h1, h2⟩ := h
    subst h1
    simp

/-- The `while self.needs_merge() { self.merge_inner(NotRoot); }` loop at
the head of `push_subtree`. -/
def merge_loop (b2b : B2b) (st : State) : Option State :=
  if needs_merge st then
    match hm : merge_inner b2b st .NotRoot with
    | some (st2, _) => merge_loop b2b st2
    | none => none
  else some st
termination_by st.subtrees.length
decreasing_by
  have := merge_inner_spec b2b st st2 .NotRoot _ hm
  omega

/-- Source: `State::push_subtree`: run the merge loop, then push the new digest
and add its length.  `ArrayVec::push` at capacity is a failure. -/
def push_subtree (b2b : B2b) (st : State) (hash : Hash) (len : Nat) : Option State :=
  match merge_loop b2b st with
  | none => none
  | some st2 =>
      if st2.subtrees.length = MAX_DEPTH then none
      else some ⟨hash :: st2.subtrees, st2.total_len + len⟩

/-- Source: `enum StateFinish { Parent(ParentNode), Root(Hash) }` -/
inductive StateFinish where
  | Parent (p : ParentNode) : StateFinish
  | Root (h : Hash) : StateFinish

/-- Source: `State::merge_finish`: above two entries merge interior, at exactly
two merge with `Root(total_len)`, below two return `subtrees[0]` (an
out-of-bounds index on an empty stack is a failure). -/
def merge_finish (b2b : B2b) (st : State) : Option (State × StateFinish) :=
  if 2 < st.subtrees.length then
    (merge_inner b2b st .NotRoot).map (fun q => (q.1, .Parent q.2))
  else if st.subtrees.length = 2 then
    (merge_inner b2b st (.Root st.total_len)).map (fun q => (q.1, .Parent q.2))
  else
    match st.subtrees with
    | [] => none
    | h :: _ => some (st, .Root h)

lemma merge_finish_parent_length (b2b : B2b) (st st2 : State) (p : ParentNode)
    (h : merge_finish b2b st = some (st2, .Parent p)) :
    st2.subtrees.length < st.subtrees.length := by
  rcases st with ⟨subs, tot⟩
  match subs with
  | [] => simp [merge_finish] at h
  | [x] => simp [merge_finish] at h
  | [x, y] =>
    simp only [merge_finish, merge_inner, List.length_cons, List.length_nil,
      Option.map_some', Option.some.injEq, Prod.mk.injEq] at h
    norm_num at h
    obtain ⟨h1, _⟩ := h
    subst h1
    simp
  | x :: y :: z :: rest =>
    simp only [merge_finish, merge_inner, List.length_cons,
      Option.map_some', Option.some.injEq, Prod.mk.injEq] at h
    norm_num at h
    obtain ⟨h1, _⟩ := h
    subst h1
    simp

/-- Source: `State::finish`: drive `merge_finish` to the root, discarding parent
bytes. -/
def finish (b2b : B2b) (st : State) : Option Hash :=
  match hm : merge_finish b2b st with
  | none => none
  | some (st2, .Parent _) => finish b2b st2
  | some (_, .Root root) => some root
termination_by st.subtrees.length
decreasing_by
  exact merge_finish_parent_length b2b st st2 _ hm

/-! ## Ghost segments

The stack of a correctly driven `State` holds interior hashes of
contiguous pieces (segments) of the input, stored top-first.  The lemmas
below track that correspondence through the merge loop and `finish`. -/

/-- Total byte count of a list of segments. -/
def totalLen (segs : List Bytes) : Nat := (segs.map List.length).sum

/-- The state whose stack holds the interior hashes of `segs` (top-first)
and whose total length is their byte count. -/
def segsState (b2b : B2b) (segs : List Bytes) : State :=
  ⟨segs.map (fun g => hash_recurse b2b g .NotRoot), totalLen segs⟩

/-- A perfect power-of-two number of chunks. -/
def IsPowLen (n : Nat) : Prop := ∃ a, n = 2 ^ a * CHUNK_SIZE

/-- Segment sizes strictly increase from the top of the stack toward the
bottom, every one a perfect power of chunks. -/
def strictSegs : List Bytes → Prop
  | [] => True
  | [g] => IsPowLen g.length
  | g :: g' :: rest => IsPowLen g.length ∧ g.length < g'.length ∧ strictSegs (g' :: rest)

/-- As `strictSegs`, but the two topmost sizes may be equal: the shape
left by a push, and preserved by each carry step of the merge loop. -/
def mstSegs : List Bytes → Prop
  | [] => True
  | [g] => IsPowLen g.length
  | g :: g' :: rest => IsPowLen g.length ∧ g.length ≤ g'.length ∧ strictSegs (g' :: rest)

lemma IsPowLen.chunk_le {n : Nat} (h : IsPowLen n) : CHUNK_SIZE ≤ n := by
  obtain ⟨a, rfl⟩ := h
  exact Nat.le_mul_of_pos_left _ (Nat.pos_pow_of_pos a (by norm_num))

lemma IsPowLen.pos {n : Nat} (h : IsPowLen n) : 0 < n := by
  have := h.chunk_le
  have := CHUNK_SIZE_pos
  omega

lemma pow_chunk_lt_iff (a b : Nat) :
    2 ^ a * CHUNK_SIZE < 2 ^ b * CHUNK_SIZE ↔ a < b := by
  rw [Nat.mul_lt_mul_right CHUNK_SIZE_pos, Nat.pow_lt_pow_iff_right (by norm_num : 1 < 2)]

lemma strict_of_mst_of_lt {g g' : Bytes} {rest : List Bytes}
    (h : mstSegs (g :: g' :: rest)) (hlt : g.length < g'.length) :
    strictSegs (g :: g' :: rest) :=
  ⟨h.1, hlt, h.2.2⟩

lemma strictSegs.mst : ∀ {segs : List Bytes}, strictSegs segs → mstSegs segs
  | [], h => h
  | [_], h => h
  | _ :: _ :: _, h => ⟨h.1, le_of_lt h.2.1, h.2.2⟩

lemma strictSegs.tail : ∀ {g : Bytes} {rest : List Bytes}, strictSegs (g :: rest) → strictSegs rest
  | _, [], _ => trivial
  | _, _ :: _, h => h.2.2

lemma strictSegs.head_pow : ∀ {g : Bytes} {rest : List Bytes},
    strictSegs (g :: rest) → IsPowLen g.length
  | _, [], h => h
  | _, _ :: _, h => h.1

lemma strictSegs.below : ∀ {g : Bytes} {rest : List Bytes}, strictSegs (g :: rest) →
    ∀ x ∈ rest, g.length < x.length := by
  intro g rest
  induction rest generalizing g with
  | nil => intro _ x hx; simp at hx
  | cons g' rest' ih =>
    intro h x hx
    rcases List.mem_cons.mp hx with rfl | hx'
    · exact h.2.1
    · exact lt_trans h.2.1 (ih h.2.2 x hx')

lemma strictSegs.all_pow : ∀ {segs : List Bytes}, strictSegs segs →
    ∀ x ∈ segs, IsPowLen x.length := by
  intro segs
  induction segs with
  | nil => intro _ x hx; simp at hx
  | cons g rest ih =>
    intro h x hx
    rcases List.mem_cons.mp hx with rfl | hx'
    · exact h.head_pow
    · exact ih h.tail x hx'

/-- Adding `2 ^ a` to a multiple of `2 ^ (a + 1)` sets exactly one more
bit. -/
lemma count_small_pow_add (a : Nat) : ∀ f m, 2 ^ (a + 1) ∣ m → 2 ^ a + m < 2 ^ f →
    count_ones_helper f (2 ^ a + m) = 1 + count_ones_helper f m := by
  induction a with
  | zero =>
    intro f m hdvd hlt
    obtain ⟨k, rfl⟩ := hdvd
    match f with
    | 0 =>
      exfalso
      rw [pow_zero] at hlt
      omega
    | f + 1 =>
      simp only [count_ones_helper, pow_zero, pow_one,
        show (2 : Nat) ^ (0 + 1) = 2 from by norm_num] at *
      have h1 : (1 + 2 * k) % 2 = 1 := by omega
      have h2 : (1 + 2 * k) / 2 = k := by omega
      have h3 : 2 * k % 2 = 0 := by omega
      have h4 : 2 * k / 2 = k := by omega
      rw [h1, h2, h3, h4]
      omega
  | succ a ih =>
    intro f m hdvd hlt
    obtain ⟨k, rfl⟩ := hdvd
    match f with
    | 0 =>
      exfalso
      rw [pow_zero] at hlt
      have := Nat.one_le_two_pow (n := a + 1)
      omega
    | f + 1 =>
      have hp1 : (2 : Nat) ^ (a + 1) = 2 * 2 ^ a := by rw [pow_succ]; ring
      have hp2 : (2 : Nat) ^ (a + 1 + 1) * k = 2 * (2 ^ (a + 1) * k) := by
        rw [pow_succ]; ring
      have hff : (2 : Nat) ^ (f + 1) = 2 * 2 ^ f := by rw [pow_succ]; ring
      simp only [count_ones_helper]
      have he : (2 ^ (a + 1) + 2 ^ (a + 1 + 1) * k) % 2 = 0 := by omega
      have hd : (2 ^ (a + 1) + 2 ^ (a + 1 + 1) * k) / 2 = 2 ^ a + 2 ^ (a + 1) * k := by omega
      have he2 : 2 ^ (a + 1 + 1) * k % 2 = 0 := by omega
      have hd2 : 2 ^ (a + 1 + 1) * k / 2 = 2 ^ (a + 1) * k := by omega
      rw [he, hd, he2, hd2, ih f (2 ^ (a + 1) * k) ⟨k, rfl⟩ (by omega)]
      omega

lemma count_ones_le_52 (x : Nat) (h : x < 2 ^ 52) : count_ones x ≤ 52 := by
  unfold count_ones
  rw [← count_ones_helper_stable 52 64 x h (by norm_num)]
  exact count_ones_helper_le 52 x

lemma div_chunk_lt (total : Nat) (h : total < 2 ^ 64) : total / CHUNK_SIZE < 2 ^ 52 := by
  rw [Nat.div_lt_iff_lt_mul CHUNK_SIZE_pos]
  norm_num [CHUNK_SIZE] at h ⊢
  omega

/-- On a strictly decreasing stack the chunk count has exactly one set
bit per stack entry. -/
lemma strict_count : ∀ segs : List Bytes, strictSegs segs → totalLen segs < 2 ^ 64 →
    count_ones (totalLen segs / CHUNK_SIZE) = segs.length := by
  intro segs
  induction segs with
  | nil => intro _ _; simp [totalLen, count_ones_zero]
  | cons g rest ih =>
    intro h hb
    obtain ⟨a, ha⟩ := h.head_pow
    have htot : totalLen (g :: rest) = g.length + totalLen rest := by
      simp [totalLen]
    have hdvd : 2 ^ (a + 1) * CHUNK_SIZE ∣ totalLen rest := by
      apply List.dvd_sum
      intro x hx
      obtain ⟨y, hy, rfl⟩ := List.mem_map.mp hx
      obtain ⟨b, hbb⟩ := h.all_pow y (List.mem_cons_of_mem g hy)
      have hab : a < b := by
        have := h.below y hy
        rw [ha, hbb] at this
        exact (pow_chunk_lt_iff a b).mp this
      rw [hbb]
      exact Nat.mul_dvd_mul_right (pow_dvd_pow 2 hab) CHUNK_SIZE
    obtain ⟨k, hk⟩ := hdvd
    have hdiv : totalLen (g :: rest) / CHUNK_SIZE = 2 ^ a + 2 ^ (a + 1) * k := by
      rw [htot, ha, hk]
      rw [show 2 ^ a * CHUNK_SIZE + 2 ^ (a + 1) * CHUNK_SIZE * k
          = (2 ^ a + 2 ^ (a + 1) * k) * CHUNK_SIZE by ring]
      exact Nat.mul_div_cancel _ CHUNK_SIZE_pos
    have hdiv2 : totalLen rest / CHUNK_SIZE = 2 ^ (a + 1) * k := by
      rw [hk, show 2 ^ (a + 1) * CHUNK_SIZE * k = 2 ^ (a + 1) * k * CHUNK_SIZE by ring]
      exact Nat.mul_div_cancel _ CHUNK_SIZE_pos
    have hblt : totalLen (g :: rest) / CHUNK_SIZE < 2 ^ 64 := by
      have h1 := Nat.div_le_self (totalLen (g :: rest)) CHUNK_SIZE
      omega
    unfold count_ones
    rw [hdiv, count_small_pow_add a 64 _ ⟨k, rfl⟩ (by rw [← hdiv]; exact hblt)]
    have : count_ones_helper 64 (2 ^ (a + 1) * k) = rest.length := by
      rw [← hdiv2]
      exact ih h.tail (by omega)
    rw [this]
    simp only [List.length_cons]
    omega

lemma merge_loop_stop (b2b : B2b) (st : State) (h : needs_merge st = false) :
    merge_loop b2b st = some st := by
  rw [merge_loop, h]
  simp

lemma merge_loop_go (b2b : B2b) (st st2 : State) (p : ParentNode)
    (hn : needs_merge st = true) (hmi : merge_inner b2b st .NotRoot = some (st2, p)) :
    merge_loop b2b st = merge_loop b2b st2 := by
  rw [merge_loop, hn]
  simp only [if_true]
  split
  · rename_i st2' p' heq2
    rw [hmi] at heq2
    simp only [Option.some.injEq, Prod.mk.injEq] at heq2
    rw [heq2.1]
  · rename_i heq2
    rw [hmi] at heq2
    simp at heq2

lemma totalLen_cons (g : Bytes) (rest : List Bytes) :
    totalLen (g :: rest) = g.length + totalLen rest := by
  simp [totalLen]

lemma totalLen_eq_flatten_length (segs : List Bytes) :
    totalLen segs = segs.reverse.flatten.length := by
  simp [totalLen, List.length_flatten, List.sum_reverse]

lemma chunk_dvd_totalLen (segs : List Bytes) (h : ∀ x ∈ segs, IsPowLen x.length) :
    CHUNK_SIZE ∣ totalLen segs := by
  apply List.dvd_sum
  intro x hx
  obtain ⟨y, hy, rfl⟩ := List.mem_map.mp hx
  obtain ⟨b, hbb⟩ := h y hy
  exact hbb ▸ Dvd.intro_left _ rfl

lemma join_reverse_merge (g g' : Bytes) (rest : List Bytes) :
    ((g' ++ g) :: rest).reverse.flatten = (g :: g' :: rest).reverse.flatten := by
  simp

/-- The merge loop of `push_subtree`, run on a stack of segments whose
sizes are powers of chunks, strictly increasing except that the top two
may be equal: it carries equal tops into their parent until the sizes are
strictly increasing, keeping the covered bytes intact. -/
lemma merge_loop_spec (b2b : B2b) (segs : List Bytes) (hmst : mstSegs segs)
    (hb : totalLen segs < 2 ^ 64) :
    ∃ segs', merge_loop b2b (segsState b2b segs) = some (segsState b2b segs') ∧
      strictSegs segs' ∧ segs'.reverse.flatten = segs.reverse.flatten ∧
      totalLen segs' = totalLen segs := by
  match segs with
  | [] =>
    refine ⟨[], ?_, trivial, rfl, rfl⟩
    apply merge_loop_stop
    simp [needs_merge, segsState, totalLen, count_ones_zero]
  | [g] =>
    have hpow : IsPowLen g.length := hmst
    obtain ⟨a, ha⟩ := hpow
    refine ⟨[g], ?_, hmst, rfl, rfl⟩
    apply merge_loop_stop
    have htot : totalLen [g] = g.length := by simp [totalLen]
    have ha64 : a < 64 := by
      have h1 : (2 : Nat) ^ a ≤ 2 ^ a * CHUNK_SIZE :=
        Nat.le_mul_of_pos_right _ CHUNK_SIZE_pos
      have h2 : (2 : Nat) ^ a < 2 ^ 64 := by rw [htot, ha] at hb; omega
      exact (Nat.pow_lt_pow_iff_right (by norm_num)).mp h2
    have hc1 : count_ones (g.length / CHUNK_SIZE) = 1 := by
      rw [ha, Nat.mul_div_cancel _ CHUNK_SIZE_pos]
      exact count_ones_pow a ha64
    simp [needs_merge, segsState, totalLen, hc1]
  | g :: g' :: rest =>
    obtain ⟨⟨a, ha⟩, hle, hstrict⟩ := hmst
    by_cases heq : g.length = g'.length
    · -- equal tops: one carry step, then recurse
      have hg' : g'.length = 2 ^ a * CHUNK_SIZE := heq ▸ ha
      have hS : strictSegs rest := hstrict.tail
      obtain ⟨s', hs'⟩ : CHUNK_SIZE ∣ totalLen rest :=
        chunk_dvd_totalLen rest (fun x hx => hstrict.all_pow x (List.mem_cons_of_mem g' hx))
      have htot : totalLen (g :: g' :: rest) = 2 ^ a * CHUNK_SIZE + 2 ^ a * CHUNK_SIZE +
          CHUNK_SIZE * s' := by
        rw [totalLen_cons, totalLen_cons, ha, hg', hs']
        ring
      have hdiv : totalLen (g :: g' :: rest) / CHUNK_SIZE = s' + 2 ^ (a + 1) := by
        rw [htot, show 2 ^ a * CHUNK_SIZE + 2 ^ a * CHUNK_SIZE + CHUNK_SIZE * s'
          = (s' + 2 ^ (a + 1)) * CHUNK_SIZE by rw [pow_succ]; ring]
        exact Nat.mul_div_cancel _ CHUNK_SIZE_pos
      have hdivrest : totalLen rest / CHUNK_SIZE = s' := by
        rw [hs', show CHUNK_SIZE * s' = s' * CHUNK_SIZE by ring]
        exact Nat.mul_div_cancel _ CHUNK_SIZE_pos
      have hcrest : count_ones s' = rest.length := by
        rw [← hdivrest]
        apply strict_count rest hS
        rw [totalLen_cons, totalLen_cons] at hb
        omega
      have hcount : count_ones (totalLen (g :: g' :: rest) / CHUNK_SIZE) ≤ 1 + rest.length := by
        rw [hdiv]
        unfold count_ones
        calc count_ones_helper 64 (s' + 2 ^ (a + 1)) ≤ 1 + count_ones_helper 64 s' := by
              apply count_add_pow_le
              have h1 : s' + 2 ^ (a + 1) = totalLen (g :: g' :: rest) / CHUNK_SIZE := hdiv.symm
              have h2 : totalLen (g :: g' :: rest) / CHUNK_SIZE ≤ totalLen (g :: g' :: rest) :=
                Nat.div_le_self _ _
              omega
          _ = 1 + count_ones s' := rfl
          _ ≤ 1 + rest.length := by rw [hcrest]
      have hn : needs_merge (segsState b2b (g :: g' :: rest)) = true := by
        simp only [needs_merge, segsState, List.length_map, List.length_cons,
          gt_iff_lt, decide_eq_true_eq]
        omega
      -- the merged parent digest is the interior hash of the joined segment
      have hparent : parent_hash b2b (hash_recurse b2b g' .NotRoot)
          (hash_recurse b2b g .NotRoot) .NotRoot = hash_recurse b2b (g' ++ g) .NotRoot := by
        refine (hash_recurse_split b2b g' g .NotRoot a hg' ?_ ?_ ?_).symm
        · have : 0 < g.length := ha ▸ IsPowLen.pos ⟨a, rfl⟩
          omega
        · omega
        · rw [totalLen_cons, totalLen_cons] at hb
          omega
      have hlen_app : (g' ++ g).length = 2 ^ (a + 1) * CHUNK_SIZE := by
        rw [List.length_append, hg', ha, pow_succ]
        ring
      have htot_eq : totalLen ((g' ++ g) :: rest) = totalLen (g :: g' :: rest) := by
        rw [totalLen_cons, totalLen_cons, totalLen_cons, List.length_append]
        omega
      have hstate : (⟨parent_hash b2b (hash_recurse b2b g' .NotRoot)
          (hash_recurse b2b g .NotRoot) .NotRoot ::
            rest.map (fun x => hash_recurse b2b x .NotRoot),
          totalLen (g :: g' :: rest)⟩ : State) = segsState b2b ((g' ++ g) :: rest) := by
        simp only [segsState, List.map_cons]
        rw [hparent, htot_eq]
      have hmi : merge_inner b2b (segsState b2b (g :: g' :: rest)) .NotRoot =
          some (segsState b2b ((g' ++ g) :: rest),
            hash_recurse b2b g' .NotRoot ++ hash_recurse b2b g .NotRoot) := by
        rw [← hstate]
        rfl
      have hmerged_mst : mstSegs ((g' ++ g) :: rest) := by
        have hpl : IsPowLen (g' ++ g).length := ⟨a + 1, hlen_app⟩
        match rest with
        | [] => exact hpl
        | g'' :: rest' =>
          refine ⟨hpl, ?_, hstrict.tail⟩
          obtain ⟨b, hbb⟩ := hstrict.all_pow g'' (by simp)
          have hab : a < b := by
            have := hstrict.below g'' (by simp)
            rw [hg', hbb] at this
            exact (pow_chunk_lt_iff a b).mp this
          rw [hlen_app, hbb]
          have : (2 : Nat) ^ (a + 1) ≤ 2 ^ b := Nat.pow_le_pow_right (by norm_num) (by omega)
          exact Nat.mul_le_mul_right CHUNK_SIZE this
      obtain ⟨segs', hml, hstr', hjoin', htl'⟩ :=
        merge_loop_spec b2b ((g' ++ g) :: rest) hmerged_mst (by omega)
      refine ⟨segs', ?_, hstr', ?_, ?_⟩
      · rw [merge_loop_go b2b _ _ _ hn hmi, hml]
      · rw [hjoin', join_reverse_merge]
      · omega
    · -- strictly increasing already: the loop does nothing
      have hlt : g.length < g'.length := lt_of_le_of_ne hle heq
      have hstr : strictSegs (g :: g' :: rest) := ⟨⟨a, ha⟩, hlt, hstrict⟩
      refine ⟨g :: g' :: rest, ?_, hstr, rfl, rfl⟩
      apply merge_loop_stop
      have hc := strict_count _ hstr hb
      simp only [needs_merge, segsState, List.length_map]
      rw [hc]
      simp
termination_by segs.length
decreasing_by
  simp only [List.length_cons]
  omega

/-! ## Finishing: folding the stack into the root -/

/-- The stack shape after the final push: a nonempty top segment of at
most the next segment's size, over strictly growing power-of-chunk
segments. -/
def goodStack : List Bytes → Prop
  | [] => False
  | top :: rest => 1 ≤ top.length ∧ strictSegs rest ∧
      (∀ g ∈ rest.head?, top.length ≤ g.length)

lemma finish_step (b2b : B2b) (st st2 : State) (p : ParentNode)
    (h : merge_finish b2b st = some (st2, .Parent p)) :
    finish b2b st = finish b2b st2 := by
  rw [finish]
  split
  · rename_i heq2
    rw [h] at heq2
    simp at heq2
  · rename_i st2' p' heq2
    rw [h] at heq2
    simp only [Option.some.injEq, Prod.mk.injEq, StateFinish.Parent.injEq] at heq2
    rw [heq2.1]
  · rename_i st2' r heq2
    rw [h] at heq2
    simp at heq2

lemma finish_root (b2b : B2b) (st st2 : State) (r : Hash)
    (h : merge_finish b2b st = some (st2, .Root r)) :
    finish b2b st = some r := by
  rw [finish]
  split
  · rename_i heq2
    rw [h] at heq2
    simp at heq2
  · rename_i st2' p' heq2
    rw [h] at heq2
    simp at heq2
  · rename_i st2' r' heq2
    rw [h] at heq2
    simp only [Option.some.injEq, Prod.mk.injEq, StateFinish.Root.injEq] at heq2
    rw [heq2.2]

lemma merge_finish_big (b2b : B2b) (st : State) (h : 2 < st.subtrees.length) :
    merge_finish b2b st =
      (merge_inner b2b st .NotRoot).map (fun q => (q.1, .Parent q.2)) := by
  unfold merge_finish
  rw [if_pos h]

lemma merge_finish_two (b2b : B2b) (st : State) (h : st.subtrees.length = 2) :
    merge_finish b2b st =
      (merge_inner b2b st (.Root st.total_len)).map (fun q => (q.1, .Parent q.2)) := by
  unfold merge_finish
  rw [if_neg (by omega), if_pos h]

lemma merge_finish_one (b2b : B2b) (st : State) (x : Hash) (hs : st.subtrees = [x]) :
    merge_finish b2b st = some (st, .Root x) := by
  unfold merge_finish
  rw [if_neg (by rw [hs]; simp), if_neg (by rw [hs]; simp), hs]

/-- Folding a well-shaped stack of at least two segments with `finish`
computes the root hash of the concatenated input. -/
lemma finish_spec (b2b : B2b) (top g' : Bytes) (rest : List Bytes)
    (hgood : goodStack (top :: g' :: rest))
    (hb : totalLen (top :: g' :: rest) < 2 ^ 64) :
    finish b2b (segsState b2b (top :: g' :: rest)) =
      some (hash_recurse b2b ((top :: g' :: rest).reverse.flatten)
        (.Root (totalLen (top :: g' :: rest)))) := by
  obtain ⟨htop, hstrict, hjun⟩ := hgood
  have hjun' : top.length ≤ g'.length := hjun g' rfl
  match hrest : rest with
  | [] =>
    have hpow : IsPowLen g'.length := hstrict
    obtain ⟨a, ha⟩ := hpow
    have hbb : g'.length + top.length < 2 ^ 64 := by
      rw [totalLen_cons, totalLen_cons, totalLen] at hb
      simp at hb
      omega
    have hparent : parent_hash b2b (hash_recurse b2b g' .NotRoot)
        (hash_recurse b2b top .NotRoot) (.Root (totalLen [top, g'])) =
        hash_recurse b2b (g' ++ top) (.Root (totalLen [top, g'])) :=
      (hash_recurse_split b2b g' top _ a ha htop hjun' hbb).symm
    have hlen2 : (segsState b2b [top, g']).subtrees.length = 2 := by
      simp [segsState]
    have htl : (segsState b2b [top, g']).total_len = totalLen [top, g'] := rfl
    have hmf : merge_finish b2b (segsState b2b [top, g']) =
        some (⟨[parent_hash b2b (hash_recurse b2b g' .NotRoot)
          (hash_recurse b2b top .NotRoot) (.Root (totalLen [top, g']))],
          totalLen [top, g']⟩,
          .Parent (hash_recurse b2b g' .NotRoot ++ hash_recurse b2b top .NotRoot)) := by
      rw [merge_finish_two b2b _ hlen2, htl]
      rfl
    rw [finish_step b2b _ _ _ hmf,
      finish_root b2b _ _ _ (merge_finish_one b2b _ _ rfl), hparent]
    have hflat : ([top, g'] : List Bytes).reverse.flatten = g' ++ top := by simp
    rw [hflat]
  | g'' :: rest' =>
    obtain ⟨a, ha⟩ : IsPowLen g'.length := hstrict.head_pow
    have hbb : g'.length + top.length < 2 ^ 64 := by
      rw [totalLen_cons, totalLen_cons] at hb
      omega
    have hparent : parent_hash b2b (hash_recurse b2b g' .NotRoot)
        (hash_recurse b2b top .NotRoot) .NotRoot =
        hash_recurse b2b (g' ++ top) .NotRoot :=
      (hash_recurse_split b2b g' top _ a ha htop hjun' hbb).symm
    have htot_eq : totalLen ((g' ++ top) :: g'' :: rest') =
        totalLen (top :: g' :: g'' :: rest') := by
      simp only [totalLen_cons, List.length_append]
      omega
    have hstate : (⟨parent_hash b2b (hash_recurse b2b g' .NotRoot)
        (hash_recurse b2b top .NotRoot) .NotRoot ::
          (g'' :: rest').map (fun x => hash_recurse b2b x .NotRoot),
        totalLen (top :: g' :: g'' :: rest')⟩ : State) =
        segsState b2b ((g' ++ top) :: g'' :: rest') := by
      simp only [segsState, List.map_cons]
      rw [hparent, htot_eq]
    have hmf : merge_finish b2b (segsState b2b (top :: g' :: g'' :: rest')) =
        some (segsState b2b ((g' ++ top) :: g'' :: rest'),
          .Parent (hash_recurse b2b g' .NotRoot ++ hash_recurse b2b top .NotRoot)) := by
      rw [merge_finish_big b2b _ (by simp [segsState])]
      rw [← hstate]
      rfl
    have hgood2 : goodStack ((g' ++ top) :: g'' :: rest') := by
      refine ⟨by simp [List.length_append]; omega, hstrict.tail, ?_⟩
      intro g hg
      simp only [List.head?_cons, Option.mem_def, Option.some.injEq] at hg
      subst hg
      obtain ⟨b, hbg⟩ := hstrict.all_pow g'' (by simp)
      have hab : a < b := by
        have := hstrict.below g'' (by simp)
        rw [ha, hbg] at this
        exact (pow_chunk_lt_iff a b).mp this
      have hle2 : (2 : Nat) ^ (a + 1) ≤ 2 ^ b := Nat.pow_le_pow_right (by norm_num) (by omega)
      have hle3 : (2 : Nat) ^ (a + 1) * CHUNK_SIZE ≤ 2 ^ b * CHUNK_SIZE :=
        Nat.mul_le_mul_right CHUNK_SIZE hle2
      have hps : (2 : Nat) ^ (a + 1) * CHUNK_SIZE = 2 ^ a * CHUNK_SIZE + 2 ^ a * CHUNK_SIZE := by
        rw [pow_succ]; ring
      have h2 : top.length ≤ 2 ^ a * CHUNK_SIZE := ha ▸ hjun'
      have h3 : g'.length + top.length ≤ 2 ^ (a + 1) * CHUNK_SIZE := by
        rw [ha, hps]
        exact Nat.add_le_add_left h2 _
      rw [List.length_append, hbg]
      exact le_trans h3 hle3
    rw [finish_step b2b _ _ _ hmf,
      finish_spec b2b (g' ++ top) g'' rest' hgood2 (by rw [htot_eq]; exact hb),
      htot_eq, join_reverse_merge]
termination_by rest.length
decreasing_by
  subst hrest
  simp only [List.length_cons]
  omega

/-! ## Driving the state with the chunks of an input -/

/-- The chunking the spec drives `State` with: full `CHUNK_SIZE` pieces
left to right, the final piece of any length in `(0, CHUNK_SIZE]` (for
nonempty input). -/
def chunksOf (s : Bytes) : List Bytes :=
  if h : s.length ≤ CHUNK_SIZE then [s]
  else s.take CHUNK_SIZE :: chunksOf (s.drop CHUNK_SIZE)
termination_by s.length
decreasing_by
  simp only [List.length_drop]
  have := CHUNK_SIZE_pos
  omega

lemma chunksOf_small (s : Bytes) (h : s.length ≤ CHUNK_SIZE) : chunksOf s = [s] := by
  rw [chunksOf]
  exact dif_pos h

lemma chunksOf_big (s : Bytes) (h : CHUNK_SIZE < s.length) :
    chunksOf s = s.take CHUNK_SIZE :: chunksOf (s.drop CHUNK_SIZE) := by
  conv_lhs => rw [chunksOf]
  exact dif_neg (by omega)

/-- Push the interior hash of every chunk, left to right. -/
def pushChunks (b2b : B2b) (st : State) (cs : List Bytes) : Option State :=
  cs.foldlM (fun acc c => push_subtree b2b acc (hash_node b2b c .NotRoot) c.length) st

lemma pushChunks_cons (b2b : B2b) (st : State) (c : Bytes) (cs : List Bytes) :
    pushChunks b2b st (c :: cs) =
      (push_subtree b2b st (hash_node b2b c .NotRoot) c.length).bind
        (fun st2 => pushChunks b2b st2 cs) := by
  simp [pushChunks, List.foldlM_cons]

lemma pushChunks_single (b2b : B2b) (st : State) (c : Bytes) :
    pushChunks b2b st [c] = push_subtree b2b st (hash_node b2b c .NotRoot) c.length := by
  rw [pushChunks_cons]
  cases push_subtree b2b st (hash_node b2b c .NotRoot) c.length <;> rfl

/-- The all-Interior drive of a fresh `State` described by the spec: push
the interior hash of every chunk of `s`, then `finish`. -/
def driveState (b2b : B2b) (s : Bytes) : Option Hash :=
  match pushChunks b2b State.new (chunksOf s) with
  | none => none
  | some st => finish b2b st

lemma flatten_reverse_cons (x : Bytes) (l : List Bytes) :
    (x :: l).reverse.flatten = l.reverse.flatten ++ x := by
  simp

/-- One `push_subtree` of a chunk-sized piece on a well-shaped stack:
the merge loop settles the stack into strictly growing segments and the
new piece lands on top. -/
lemma push_segs (b2b : B2b) (segs : List Bytes) (c : Bytes) (hmst : mstSegs segs)
    (hb : totalLen segs < 2 ^ 64) (hc : c.length ≤ CHUNK_SIZE) :
    ∃ segs₀, push_subtree b2b (segsState b2b segs) (hash_node b2b c .NotRoot) c.length =
        some (segsState b2b (c :: segs₀)) ∧ strictSegs segs₀ ∧
      segs₀.reverse.flatten = segs.reverse.flatten ∧ totalLen segs₀ = totalLen segs := by
  obtain ⟨segs₀, hml, hstr, hflat, htl⟩ := merge_loop_spec b2b segs hmst hb
  refine ⟨segs₀, ?_, hstr, hflat, htl⟩
  have hlen : segs₀.length ≠ MAX_DEPTH := by
    have h1 : count_ones (totalLen segs₀ / CHUNK_SIZE) = segs₀.length :=
      strict_count segs₀ hstr (by omega)
    have h2 : totalLen segs₀ / CHUNK_SIZE < 2 ^ 52 := div_chunk_lt _ (by omega)
    have h3 := count_ones_le_52 _ h2
    unfold MAX_DEPTH
    omega
  have hcond : ¬ ((segsState b2b segs₀).subtrees.length = MAX_DEPTH) := by
    simp only [segsState, List.length_map]
    exact hlen
  have hnode : hash_node b2b c .NotRoot = hash_recurse b2b c .NotRoot :=
    (hash_recurse_leaf b2b c .NotRoot hc).symm
  simp only [push_subtree, hml]
  rw [if_neg hcond, hnode]
  congr 1
  simp only [segsState, List.map_cons, totalLen_cons]
  rw [State.mk.injEq]
  exact ⟨rfl, by omega⟩

/-- Driving the chunks of a nonempty `s` onto a well-shaped stack: all
pushes succeed, and the stack ends as the final (possibly short) chunk on
top of strictly growing segments covering everything pushed so far. -/
lemma drive_go (b2b : B2b) (s : Bytes) (segs : List Bytes) (hs : 1 ≤ s.length)
    (hmst : mstSegs segs) (hbound : totalLen segs + s.length < 2 ^ 64) :
    ∃ top rest, pushChunks b2b (segsState b2b segs) (chunksOf s) =
        some (segsState b2b (top :: rest)) ∧
      strictSegs rest ∧ 1 ≤ top.length ∧ top.length ≤ CHUNK_SIZE ∧
      (∀ g ∈ rest.head?, top.length ≤ g.length) ∧
      (top :: rest).reverse.flatten = segs.reverse.flatten ++ s := by
  by_cases hsmall : s.length ≤ CHUNK_SIZE
  · obtain ⟨segs₀, hpush, hstr, hflat, htl⟩ :=
      push_segs b2b segs s hmst (by omega) hsmall
    refine ⟨s, segs₀, ?_, hstr, hs, hsmall, ?_, ?_⟩
    · rw [chunksOf_small s hsmall, pushChunks_single, hpush]
    · intro g hg
      have hmem : g ∈ segs₀ := by
        cases segs₀ with
        | nil => simp at hg
        | cons y l =>
          simp only [List.head?_cons, Option.mem_def, Option.some.injEq] at hg
          subst hg
          simp
      obtain ⟨b, hbg⟩ := hstr.all_pow g hmem
      have := IsPowLen.chunk_le ⟨b, hbg⟩
      omega
    · rw [flatten_reverse_cons, hflat]
  · push_neg at hsmall
    have htake : (s.take CHUNK_SIZE).length = CHUNK_SIZE := by
      simp only [List.length_take]
      omega
    obtain ⟨segs₀, hpush, hstr, hflat, htl⟩ :=
      push_segs b2b segs (s.take CHUNK_SIZE) hmst (by omega) (by omega)
    have hmst2 : mstSegs (s.take CHUNK_SIZE :: segs₀) := by
      have hpl : IsPowLen (s.take CHUNK_SIZE).length := ⟨0, by rw [htake]; ring⟩
      match segs₀ with
      | [] => exact hpl
      | y :: l =>
        refine ⟨hpl, ?_, hstr⟩
        obtain ⟨b, hbg⟩ := hstr.all_pow y (by simp)
        have := IsPowLen.chunk_le ⟨b, hbg⟩
        omega
    obtain ⟨top, rest, hrec, hstr', htop1, htop2, hjun, hflat'⟩ :=
      drive_go b2b (s.drop CHUNK_SIZE) (s.take CHUNK_SIZE :: segs₀)
        (by simp only [List.length_drop]; omega)
        hmst2
        (by
          rw [totalLen_cons, htake, htl]
          simp only [List.length_drop]
          omega)
    refine ⟨top, rest, ?_, hstr', htop1, htop2, hjun, ?_⟩
    · rw [chunksOf_big s hsmall, pushChunks_cons, hpush]
      exact hrec
    · rw [hflat', flatten_reverse_cons, hflat, List.append_assoc, List.take_append_drop]
termination_by s.length
decreasing_by
  simp only [List.length_drop]
  have := CHUNK_SIZE_pos
  omega

/-- The all-Interior drive equals the one-shot hash, for inputs longer
than one chunk. -/
lemma driveState_eq_hash (b2b : B2b) (s : Bytes) (hgt : CHUNK_SIZE < s.length)
    (hlt : s.length < 2 ^ 64) : driveState b2b s = some (hash b2b s) := by
  obtain ⟨top, rest, hpush, hstr, htop1, htop2, hjun, hflat⟩ :=
    drive_go b2b s [] (by omega) trivial (by simp [totalLen]; omega)
  cases rest with
  | nil =>
    exfalso
    have hts : top = s := by simpa using hflat
    rw [hts] at htop2
    omega
  | cons g' rest' =>
    have hflat' : (top :: g' :: rest').reverse.flatten = s := by simpa using hflat
    have htot : totalLen (top :: g' :: rest') = s.length := by
      rw [totalLen_eq_flatten_length, hflat']
    have hfin := finish_spec b2b top g' rest' ⟨htop1, hstr, hjun⟩ (by omega)
    unfold driveState
    rw [show (State.new : State) = segsState b2b [] from rfl]
    simp only [hpush]
    rw [hfin, hflat', htot, hash_eq_hash_recurse]

/-! ## Shape transport

The stack length and `total_len` evolve independently of the hash values
pushed, so the depth facts proved for chunk-content pushes carry over to
pushes of arbitrary digests. -/

/-- Two states with the same stack depth and total length. -/
def StateShape (st1 st2 : State) : Prop :=
  st1.subtrees.length = st2.subtrees.length ∧ st1.total_len = st2.total_len

lemma needs_merge_shape (st1 st2 : State) (h : StateShape st1 st2) :
    needs_merge st1 = needs_merge st2 := by
  unfold needs_merge
  rw [h.1, h.2]

lemma merge_loop_fail (b2b : B2b) (st : State) (hn : needs_merge st = true)
    (hmi : merge_inner b2b st .NotRoot = none) : merge_loop b2b st = none := by
  rw [merge_loop, hn]
  simp only [if_true]
  split
  · rename_i heq
    rw [hmi] at heq
    simp at heq
  · rfl

lemma merge_loop_shape_aux (b2b : B2b) : ∀ (n : Nat) (st1 st2 : State),
    st1.subtrees.length ≤ n → StateShape st1 st2 →
    (merge_loop b2b st1 = none ∧ merge_loop b2b st2 = none) ∨
    ∃ u1 u2, merge_loop b2b st1 = some u1 ∧ merge_loop b2b st2 = some u2 ∧
      StateShape u1 u2 := by
  intro n
  induction n with
  | zero =>
    intro st1 st2 hlen h
    have hn' : needs_merge st1 = false := by
      unfold needs_merge
      simp only [gt_iff_lt, decide_eq_false_iff_not, not_lt]
      omega
    have hn2 : needs_merge st2 = false := (needs_merge_shape st1 st2 h) ▸ hn'
    right
    exact ⟨st1, st2, merge_loop_stop b2b st1 hn', merge_loop_stop b2b st2 hn2, h⟩
  | succ n ih =>
    intro st1 st2 hlen h
    by_cases hn : needs_merge st1 = true
    · have hn2 : needs_merge st2 = true := (needs_merge_shape st1 st2 h) ▸ hn
      rcases st1 with ⟨subs1, tot1⟩
      rcases st2 with ⟨subs2, tot2⟩
      match subs1, subs2, h.1 with
      | [], [], _ =>
        exfalso
        unfold needs_merge at hn
        simp only [List.length_nil, gt_iff_lt, decide_eq_true_eq] at hn
        omega
      | [x], [y], _ =>
        left
        exact ⟨merge_loop_fail b2b _ hn rfl, merge_loop_fail b2b _ hn2 rfl⟩
      | x :: x' :: r1, y :: y' :: r2, hlen2 =>
        have hmi1 : merge_inner b2b ⟨x :: x' :: r1, tot1⟩ .NotRoot =
            some (⟨parent_hash b2b x' x .NotRoot :: r1, tot1⟩, x' ++ x) := rfl
        have hmi2 : merge_inner b2b ⟨y :: y' :: r2, tot2⟩ .NotRoot =
            some (⟨parent_hash b2b y' y .NotRoot :: r2, tot2⟩, y' ++ y) := rfl
        have hsh2 : StateShape ⟨parent_hash b2b x' x .NotRoot :: r1, tot1⟩
            ⟨parent_hash b2b y' y .NotRoot :: r2, tot2⟩ := by
          refine ⟨?_, h.2⟩
          simp only [List.length_cons] at hlen2 ⊢
          omega
        rw [merge_loop_go b2b _ _ _ hn hmi1, merge_loop_go b2b _ _ _ hn2 hmi2]
        apply ih
        · simp only [List.length_cons] at hlen ⊢
          omega
        · exact hsh2
    · have hn' : needs_merge st1 = false := by
        cases hv : needs_merge st1
        · rfl
        · exact absurd hv hn
      have hn2 : needs_merge st2 = false := (needs_merge_shape st1 st2 h) ▸ hn'
      right
      exact ⟨st1, st2, merge_loop_stop b2b st1 hn', merge_loop_stop b2b st2 hn2, h⟩

lemma merge_loop_shape (b2b : B2b) (st1 st2 : State) (h : StateShape st1 st2) :
    (merge_loop b2b st1 = none ∧ merge_loop b2b st2 = none) ∨
    ∃ u1 u2, merge_loop b2b st1 = some u1 ∧ merge_loop b2b st2 = some u2 ∧
      StateShape u1 u2 :=
  merge_loop_shape_aux b2b st1.subtrees.length st1 st2 le_rfl h

lemma push_subtree_shape (b2b : B2b) (st1 st2 : State) (x y : Hash) (len : Nat)
    (h : StateShape st1 st2) :
    (push_subtree b2b st1 x len = none ∧ push_subtree b2b st2 y len = none) ∨
    ∃ u1 u2, push_subtree b2b st1 x len = some u1 ∧ push_subtree b2b st2 y len = some u2 ∧
      StateShape u1 u2 := by
  rcases merge_loop_shape b2b st1 st2 h with ⟨hm1, hm2⟩ | ⟨u1, u2, hm1, hm2, hsh⟩
  · left
    constructor <;> simp [push_subtree, hm1, hm2]
  · by_cases hcap : u1.subtrees.length = MAX_DEPTH
    · left
      have hcap2 : u2.subtrees.length = MAX_DEPTH := hsh.1 ▸ hcap
      constructor <;> simp [push_subtree, hm1, hm2, hcap, hcap2]
    · right
      have hcap2 : ¬ (u2.subtrees.length = MAX_DEPTH) := hsh.1 ▸ hcap
      refine ⟨⟨x :: u1.subtrees, u1.total_len + len⟩, ⟨y :: u2.subtrees, u2.total_len + len⟩,
        ?_, ?_, ?_⟩
      · simp [push_subtree, hm1, hcap]
      · simp [push_subtree, hm2, hcap2]
      · exact ⟨by simp [hsh.1], by simp [hsh.2]⟩

/-- Push a list of digests, each covering exactly one chunk. -/
def pushN (b2b : B2b) (st : State) (hs : List Hash) : Option State :=
  hs.foldlM (fun acc x => push_subtree b2b acc x CHUNK_SIZE) st

lemma pushN_cons (b2b : B2b) (st : State) (x : Hash) (hs : List Hash) :
    pushN b2b st (x :: hs) =
      (push_subtree b2b st x CHUNK_SIZE).bind (fun st2 => pushN b2b st2 hs) := by
  simp [pushN, List.foldlM_cons]

lemma pushN_shape_chunks (b2b : B2b) : ∀ (hs : List Hash) (cs : List Bytes),
    hs.length = cs.length → (∀ c ∈ cs, c.length = CHUNK_SIZE) →
    ∀ st1 st2, StateShape st1 st2 →
    (pushN b2b st1 hs = none ∧ pushChunks b2b st2 cs = none) ∨
    ∃ u1 u2, pushN b2b st1 hs = some u1 ∧ pushChunks b2b st2 cs = some u2 ∧
      StateShape u1 u2 := by
  intro hs
  induction hs with
  | nil =>
    intro cs hlen _ st1 st2 hsh
    have : cs = [] := List.eq_nil_of_length_eq_zero hlen.symm
    subst this
    right
    exact ⟨st1, st2, rfl, rfl, hsh⟩
  | cons x hs' ih =>
    intro cs hlen hcs st1 st2 hsh
    match cs with
    | [] => simp at hlen
    | c :: cs' =>
      have hc : c.length = CHUNK_SIZE := hcs c (by simp)
      rcases push_subtree_shape b2b st1 st2 x (hash_node b2b c .NotRoot) CHUNK_SIZE hsh with
        ⟨hp1, hp2⟩ | ⟨u1, u2, hp1, hp2, hsh'⟩
      · left
        rw [pushN_cons, pushChunks_cons, hp1, hc, hp2]
        exact ⟨rfl, rfl⟩
      · have hrec := ih cs' (by simpa using hlen) (fun d hd => hcs d (by simp [hd])) u1 u2 hsh'
        rw [pushN_cons, pushChunks_cons, hp1, hc, hp2]
        simpa using hrec

lemma chunksOf_exact : ∀ (k : Nat) (s : Bytes), 1 ≤ k → s.length = k * CHUNK_SIZE →
    (chunksOf s).length = k ∧ ∀ c ∈ chunksOf s, c.length = CHUNK_SIZE := by
  intro k
  induction k with
  | zero =>
    intro s h1 _
    exact absurd h1 (by omega)
  | succ k ih =>
    intro s h1 hlen
    by_cases hk : k = 0
    · subst hk
      have hsl : s.length = CHUNK_SIZE := by rw [hlen]; ring
      rw [chunksOf_small s (by omega)]
      refine ⟨rfl, ?_⟩
      intro c hc
      simp only [List.mem_singleton] at hc
      subst hc
      exact hsl
    · have hk1 : 1 ≤ k := by omega
      have hchk : CHUNK_SIZE ≤ k * CHUNK_SIZE := Nat.le_mul_of_pos_left _ (by omega)
      have hbig : CHUNK_SIZE < s.length := by
        rw [hlen, show (k + 1) * CHUNK_SIZE = k * CHUNK_SIZE + CHUNK_SIZE by ring]
        have := CHUNK_SIZE_pos
        omega
      rw [chunksOf_big s hbig]
      have hdrop : (s.drop CHUNK_SIZE).length = k * CHUNK_SIZE := by
        simp only [List.length_drop]
        rw [hlen, show (k + 1) * CHUNK_SIZE = k * CHUNK_SIZE + CHUNK_SIZE by ring]
        omega
      obtain ⟨ihl, ihc⟩ := ih (s.drop CHUNK_SIZE) hk1 hdrop
      constructor
      · simp [ihl]
      · intro c hc
        rcases List.mem_cons.mp hc with rfl | hc'
        · simp only [List.length_take]
          omega
        · exact ihc c hc'

/-- After `k` chunk-content pushes from a fresh state the stack holds
`popcount(k - 1) + 1` digests and covers `k` chunks. -/
lemma pushChunks_depth (b2b : B2b) (k : Nat) (h1 : 1 ≤ k) (h2 : k < 2 ^ 52) :
    ∃ st, pushChunks b2b State.new (chunksOf (List.replicate (k * CHUNK_SIZE) 0)) = some st ∧
      st.subtrees.length = count_ones (k - 1) + 1 ∧ st.total_len = k * CHUNK_SIZE := by
  have hslen : (List.replicate (k * CHUNK_SIZE) (0 : Nat)).length = k * CHUNK_SIZE := by simp
  have hbound : k * CHUNK_SIZE < 2 ^ 64 := by
    have h3 : k * CHUNK_SIZE < 2 ^ 52 * CHUNK_SIZE :=
      (Nat.mul_lt_mul_right CHUNK_SIZE_pos).mpr h2
    norm_num [CHUNK_SIZE] at h3 ⊢
    omega
  have hchk : CHUNK_SIZE ≤ k * CHUNK_SIZE := Nat.le_mul_of_pos_left _ (by omega)
  obtain ⟨top, rest, hpush, hstr, htop1, htop2, hjun, hflat⟩ :=
    drive_go b2b (List.replicate (k * CHUNK_SIZE) 0) []
      (by rw [hslen]; have := CHUNK_SIZE_pos; omega)
      trivial
      (by simp only [totalLen, List.map_nil, List.sum_nil, Nat.zero_add, hslen]; exact hbound)
  have htot : totalLen (top :: rest) = k * CHUNK_SIZE := by
    rw [totalLen_eq_flatten_length, hflat]
    simp
  obtain ⟨s', hs'⟩ : CHUNK_SIZE ∣ totalLen rest := chunk_dvd_totalLen rest hstr.all_pow
  have htopCH : top.length = CHUNK_SIZE := by
    rw [totalLen_cons, hs'] at htot
    simp only [CHUNK_SIZE] at htot htop2 ⊢
    omega
  have hrestlen : totalLen rest = (k - 1) * CHUNK_SIZE := by
    rw [totalLen_cons, htopCH] at htot
    rw [show (k - 1) * CHUNK_SIZE = k * CHUNK_SIZE - CHUNK_SIZE by
      rw [Nat.sub_mul, one_mul]]
    omega
  have hrl : rest.length = count_ones (k - 1) := by
    have hrb : totalLen rest < 2 ^ 64 := by
      rw [hrestlen]
      have h4 : (k - 1) * CHUNK_SIZE ≤ k * CHUNK_SIZE :=
        Nat.mul_le_mul_right CHUNK_SIZE (by omega)
      omega
    have hcount := strict_count rest hstr hrb
    rw [hrestlen, Nat.mul_div_cancel _ CHUNK_SIZE_pos] at hcount
    omega
  refine ⟨segsState b2b (top :: rest), hpush, ?_, ?_⟩
  · simp only [segsState, List.length_map, List.length_cons]
    omega
  · exact htot

/-- After `k ≥ 1` pushes of arbitrary digests covering `CHUNK_SIZE` bytes
each, the stack depth is `popcount(k - 1) + 1`. -/
lemma pushN_depth (b2b : B2b) (hs : List Hash) (h1 : 1 ≤ hs.length)
    (h2 : hs.length < 2 ^ 52) :
    ∃ st, pushN b2b State.new hs = some st ∧
      st.subtrees.length = count_ones (hs.length - 1) + 1 ∧
      st.total_len = hs.length * CHUNK_SIZE := by
  obtain ⟨st2, hpush2, hdep2, htot2⟩ := pushChunks_depth b2b hs.length h1 h2
  have hex := chunksOf_exact hs.length (List.replicate (hs.length * CHUNK_SIZE) 0) h1 (by simp)
  rcases pushN_shape_chunks b2b hs (chunksOf (List.replicate (hs.length * CHUNK_SIZE) 0))
      (by rw [hex.1]) hex.2 State.new State.new ⟨rfl, rfl⟩ with
    ⟨_, hn2⟩ | ⟨u1, u2, hu1, hu2, hsh⟩
  · rw [hpush2] at hn2
    simp at hn2
  · rw [hpush2] at hu2
    have heq : st2 = u2 := Option.some.inj hu2
    refine ⟨u1, hu1, ?_, ?_⟩
    · rw [hsh.1, ← heq, hdep2]
    · rw [hsh.2, ← heq, htot2]

/-! ## The claims -/

/-- A concrete instance of the opaque compression, used for concrete
evaluations: it returns the fed bytes with the last-node flag appended,
so distinct inputs to the primitive stay distinct. -/
def b2bTest : B2b := fun fed last_node => fed ++ [if last_node then 1 else 0]

/-- C1: for every input, `hash(input)` equals the single-shot recursive
reference hasher at `Root(|input|)`, where the reference hashes a single
chunk directly when the input is at most one chunk, and otherwise splits
at `left_len(|input|)`, hashes both sides with Interior (`NotRoot`)
finalization, and returns their parent hash. -/
theorem claim_C1 (b2b : B2b) (input : Bytes) (f : Finalization) :
    hash b2b input = hash_recurse b2b input (.Root input.length) ∧
    (input.length ≤ CHUNK_SIZE → hash_recurse b2b input f = hash_node b2b input f) ∧
    (CHUNK_SIZE < input.length → hash_recurse b2b input f =
      parent_hash b2b (hash_recurse b2b (input.take (left_len input.length)) .NotRoot)
        (hash_recurse b2b (input.drop (left_len input.length)) .NotRoot) f) :=
  ⟨hash_eq_hash_recurse b2b input, hash_recurse_leaf b2b input f,
    hash_recurse_node b2b input f⟩

/-- Witness for C1 at concrete inputs on both sides of the chunk
boundary. -/
theorem claim_C1_witness :
    (hash b2bTest [0] = hash_recurse b2bTest [0] (.Root 1)) ∧
    (hash_recurse b2bTest [0] .NotRoot = hash_node b2bTest [0] .NotRoot) ∧
    (hash_recurse b2bTest (List.replicate 4097 0) .NotRoot =
      parent_hash b2bTest
        (hash_recurse b2bTest ((List.replicate 4097 0).take (left_len 4097)) .NotRoot)
        (hash_recurse b2bTest ((List.replicate 4097 0).drop (left_len 4097)) .NotRoot)
        .NotRoot) := by
  refine ⟨(claim_C1 b2bTest [0] .NotRoot).1,
    (claim_C1 b2bTest [0] .NotRoot).2.1 (by norm_num [CHUNK_SIZE]), ?_⟩
  have h := (claim_C1 b2bTest (List.replicate 4097 0) .NotRoot).2.2
    (by norm_num [CHUNK_SIZE])
  simp only [List.length_replicate] at h
  exact h

/-- C2: node hashing feeds nothing extra and leaves the last-node flag
unset under an Interior tag; under `Root(L)` it feeds exactly the 8-byte
little-endian encoding of `L` and sets the last-node flag before
extracting the digest. -/
theorem claim_C2 (b2b : B2b) (chunk l r : Bytes) (L : Nat) :
    hash_node b2b chunk .NotRoot = b2b chunk false ∧
    hash_node b2b chunk (.Root L) = b2b (chunk ++ encode_len L) true ∧
    parent_hash b2b l r .NotRoot = b2b (l ++ r) false ∧
    parent_hash b2b l r (.Root L) = b2b (l ++ r ++ encode_len L) true ∧
    (encode_len L).length = 8 := by
  refine ⟨?_, ?_, ?_, ?_, rfl⟩ <;>
    simp [hash_node, parent_hash, finalize_hash, new_blake2b_state, B2State.update,
      B2State.set_last_node, B2State.finalize]

/-- Counterexample to C3 as stated: for the one-byte input, the
all-Interior drive returns the interior chunk hash, while `hash` returns
the root-finalized chunk hash; they differ. -/
theorem claim_C3_counterexample : driveState b2bTest [0] ≠ some (hash b2bTest [0]) := by
  have hchunks : chunksOf [0] = [[0]] := chunksOf_small [0] (by norm_num [CHUNK_SIZE])
  have hnm : needs_merge State.new = false := by decide
  have hpush : pushChunks b2bTest State.new (chunksOf [0]) = some ⟨[[0, 0]], 1⟩ := by
    rw [hchunks, pushChunks_single]
    simp only [push_subtree, merge_loop_stop b2bTest State.new hnm]
    rfl
  have hfin : finish b2bTest ⟨[[0, 0]], 1⟩ = some [0, 0] :=
    finish_root b2bTest _ _ _ (merge_finish_one b2bTest _ _ rfl)
  have hdrive : driveState b2bTest [0] = some [0, 0] := by
    unfold driveState
    simp only [hpush]
    exact hfin
  have hhash : hash b2bTest [0] = [0, 1, 0, 0, 0, 0, 0, 0, 0, 1] := by
    rw [hash_eq_hash_recurse, hash_recurse_leaf b2bTest [0] _ (by norm_num [CHUNK_SIZE])]
    rfl
  rw [hdrive, hhash]
  simp

/-- C3 (amended): for every byte string longer than one chunk (and within
the u64 range), driving a fresh Merging State with chunk-sized
Interior-finalized pushes followed by finish() returns the digest of
hash(s).  (For inputs of at most one chunk the code expects the caller to
root-finalize the single chunk before pushing, so the all-Interior drive
differs from hash there.) -/
theorem claim_C3 (b2b : B2b) (s : Bytes) (hgt : CHUNK_SIZE < s.length)
    (hlt : s.length < 2 ^ 64) : driveState b2b s = some (hash b2b s) :=
  driveState_eq_hash b2b s hgt hlt

/-- Witness for the amended C3 at a 4097-byte input. -/
theorem claim_C3_witness :
    CHUNK_SIZE < (List.replicate 4097 (0 : Nat)).length ∧
    driveState b2bTest (List.replicate 4097 0) =
      some (hash b2bTest (List.replicate 4097 0)) :=
  ⟨by norm_num [CHUNK_SIZE],
    claim_C3 b2bTest _ (by norm_num [CHUNK_SIZE]) (by norm_num)⟩

/-- C4: merge_finish by cases on the stack depth — above two digests it
folds the top two with Interior finalization and returns the parent
bytes; at exactly two it folds them with `Root(total_len)`, leaving the
root digest as the only stack entry, and returns the parent bytes; at one
it returns that digest as the root. -/
theorem claim_C4 (b2b : B2b) (st : State) :
    (∀ r l rest, st.subtrees = r :: l :: rest → rest ≠ [] →
      merge_finish b2b st = some (⟨parent_hash b2b l r .NotRoot :: rest, st.total_len⟩,
        .Parent (l ++ r))) ∧
    (∀ r l, st.subtrees = [r, l] →
      merge_finish b2b st = some (⟨[parent_hash b2b l r (.Root st.total_len)], st.total_len⟩,
        .Parent (l ++ r))) ∧
    (∀ x, st.subtrees = [x] → merge_finish b2b st = some (st, .Root x)) := by
  refine ⟨?_, ?_, ?_⟩
  · intro r l rest hs hne
    have hlen : 2 < st.subtrees.length := by
      rw [hs]
      match rest, hne with
      | x :: xs, _ => simp only [List.length_cons]; omega
    rw [merge_finish_big b2b st hlen]
    unfold merge_inner
    rw [hs]
    rfl
  · intro r l hs
    have hlen : st.subtrees.length = 2 := by rw [hs]; rfl
    rw [merge_finish_two b2b st hlen]
    unfold merge_inner
    rw [hs]
    rfl
  · intro x hs
    exact merge_finish_one b2b st x hs

/-- Witness for C4 at a concrete two-entry state. -/
theorem claim_C4_witness :
    merge_finish b2bTest ⟨[[0], [1]], 7⟩ =
      some (⟨[parent_hash b2bTest [1] [0] (.Root 7)], 7⟩, .Parent ([1] ++ [0])) :=
  (claim_C4 b2bTest ⟨[[0], [1]], 7⟩).2.1 [0] [1] rfl

/-- Counterexample to C5 as stated: after two chunk-sized pushes the
stack still holds two digests (the merge is deferred to the start of the
next push), while the popcount of the chunk count is one. -/
theorem claim_C5_counterexample :
    pushN b2bTest State.new [[0], [1]] = some ⟨[[1], [0]], 8192⟩ ∧
    ¬ ((⟨[[1], [0]], 8192⟩ : State).subtrees.length =
        count_ones ((⟨[[1], [0]], 8192⟩ : State).total_len / CHUNK_SIZE)) := by
  constructor
  · rw [pushN_cons]
    have h1 : push_subtree b2bTest State.new [0] CHUNK_SIZE = some ⟨[[0]], 4096⟩ := by
      simp only [push_subtree, merge_loop_stop b2bTest State.new (by decide)]
      rfl
    rw [h1]
    show pushN b2bTest ⟨[[0]], 4096⟩ [[1]] = some ⟨[[1], [0]], 8192⟩
    rw [pushN_cons]
    have h2 : push_subtree b2bTest ⟨[[0]], 4096⟩ [1] CHUNK_SIZE =
        some ⟨[[1], [0]], 8192⟩ := by
      simp only [push_subtree, merge_loop_stop b2bTest ⟨[[0]], 4096⟩ (by decide)]
      rfl
    rw [h2]
    rfl
  · decide

/-- C5 (amended): merging is lazy — the merges of a push run at its start
using the previous total, so after k chunk-sized pushes the stack depth
is popcount(k − 1) + 1 rather than popcount(k); the depth never exceeds
MAX_DEPTH for u64 totals, and `needs_merge` is exactly the comparison
`stack.size() > popcount(total_len / CHUNK_SIZE)`. -/
theorem claim_C5 (b2b : B2b) (hs : List Hash) (h1 : 1 ≤ hs.length)
    (h2 : hs.length < 2 ^ 52) :
    (∃ st, pushN b2b State.new hs = some st ∧
      st.subtrees.length = count_ones (hs.length - 1) + 1 ∧
      st.subtrees.length ≤ MAX_DEPTH ∧
      st.total_len = hs.length * CHUNK_SIZE) ∧
    (∀ st : State, needs_merge st = true ↔
      count_ones (st.total_len / CHUNK_SIZE) < st.subtrees.length) := by
  constructor
  · obtain ⟨st, hp, hd, ht⟩ := pushN_depth b2b hs h1 h2
    refine ⟨st, hp, hd, ?_, ht⟩
    have hc := count_ones_le_52 (hs.length - 1) (by omega)
    rw [hd]
    unfold MAX_DEPTH
    omega
  · intro st
    unfold needs_merge
    simp [gt_iff_lt]

/-- Witness for the amended C5 after a single chunk push. -/
theorem claim_C5_witness :
    ∃ st, pushN b2bTest State.new [[0]] = some st ∧
      st.subtrees.length = count_ones 0 + 1 ∧ st.subtrees.length ≤ MAX_DEPTH ∧
      st.total_len = 1 * CHUNK_SIZE := by
  have h := (claim_C5 b2bTest [[0]] (by norm_num) (by norm_num)).1
  simpa using h

/-- C6: left_len computes the largest power-of-two number of full chunks
that fits strictly inside the content, so the left side is shorter than
the whole, the right side is nonempty, and the left side is a
power-of-two multiple of CHUNK_SIZE. -/
theorem claim_C6 (n : Nat) (h1 : CHUNK_SIZE < n) (h2 : n < 2 ^ 64) :
    left_len n = largest_power_of_two ((n - 1) / CHUNK_SIZE) * CHUNK_SIZE ∧
    left_len n < n ∧ 1 ≤ n - left_len n ∧ left_len n % CHUNK_SIZE = 0 ∧
    ∃ k, left_len n / CHUNK_SIZE = 2 ^ k := by
  refine ⟨rfl, left_len_lt n h1, ?_, ?_, ?_⟩
  · have := left_len_lt n h1
    omega
  · obtain ⟨k, hk⟩ := lpot_is_pow ((n - 1) / CHUNK_SIZE)
    unfold left_len
    rw [hk, Nat.mul_mod_left]
  · obtain ⟨k, hk⟩ := lpot_is_pow ((n - 1) / CHUNK_SIZE)
    refine ⟨k, ?_⟩
    unfold left_len
    rw [hk, Nat.mul_div_cancel _ CHUNK_SIZE_pos]

/-- Witness for C6 at the smallest two-chunk input length. -/
theorem claim_C6_witness :
    left_len 4097 = largest_power_of_two ((4097 - 1) / CHUNK_SIZE) * CHUNK_SIZE ∧
    left_len 4097 < 4097 ∧ ∃ k, left_len 4097 / CHUNK_SIZE = 2 ^ k := by
  have h := claim_C6 4097 (by norm_num [CHUNK_SIZE]) (by norm_num)
  exact ⟨h.1, h.2.1, h.2.2.2.2⟩

/-- C7: largest_power_of_two returns the greatest power of two at most
its argument, over the whole u64 range, with the boundary values the
claim lists. -/
theorem claim_C7 (n : Nat) (h1 : 1 ≤ n) (h2 : n ≤ 0xffffffffffffffff) :
    ((∃ k, largest_power_of_two n = 2 ^ k) ∧ largest_power_of_two n ≤ n ∧
      (∀ j, 2 ^ j ≤ n → 2 ^ j ≤ largest_power_of_two n)) ∧
    largest_power_of_two 1 = 1 ∧ largest_power_of_two 2 = 2 ∧
    largest_power_of_two 3 = 2 ∧ (∀ m, 4 ≤ m → m < 8 → largest_power_of_two m = 4) ∧
    largest_power_of_two 0xffffffffffffffff = 0x8000000000000000 := by
  refine ⟨⟨lpot_is_pow n, lpot_le n h1, ?_⟩, by decide, by decide, by decide, ?_, by decide⟩
  · intro j hj
    have h64 : n < 2 ^ 64 := by norm_num at h2 ⊢; omega
    obtain ⟨hle, hlt⟩ := lpot_bracket n h1 h64
    by_contra hc
    push_neg at hc
    obtain ⟨k, hk⟩ := lpot_is_pow n
    rw [hk] at hc hlt
    have hjk : k < j := by
      by_contra hkj
      push_neg at hkj
      have h2k : (2 : Nat) ^ j ≤ 2 ^ k := Nat.pow_le_pow_right (by norm_num) hkj
      omega
    have hstep : 2 ^ (k + 1) ≤ 2 ^ j := Nat.pow_le_pow_right (by norm_num) (by omega)
    rw [pow_succ] at hstep
    omega
  · intro m hm1 hm2
    interval_cases m <;> decide

/-- Witness for C7 at n = 5. -/
theorem claim_C7_witness :
    (∃ k, largest_power_of_two 5 = 2 ^ k) ∧ largest_power_of_two 5 ≤ 5 ∧
      (∀ j, 2 ^ j ≤ 5 → 2 ^ j ≤ largest_power_of_two 5) :=
  (claim_C7 5 (by norm_num) (by norm_num)).1

/-- C8: the parallel (rayon) recursion is bit-identical to the serial
recursion on every input and finalization; consequently hash(s) computes
the serial reference on both sides of the MAX_SINGLE_THREADED
threshold. -/
theorem claim_C8 (b2b : B2b) (input : Bytes) (f : Finalization) :
    hash_recurse_rayon b2b input f = hash_recurse b2b input f ∧
    hash b2b input = hash_recurse b2b input (.Root input.length) :=
  ⟨hash_recurse_rayon_eq b2b input f, hash_eq_hash_recurse b2b input⟩

/-- Counterexample to C9 as stated: a zero-length push on a fresh state
is silently accepted — push_subtree returns a state rather than
failing. -/
theorem claim_C9_counterexample :
    push_subtree b2bTest State.new [0] 0 = some ⟨[[0]], 0⟩ := by
  simp only [push_subtree, merge_loop_stop b2bTest State.new (by decide)]
  rfl

/-- C9 (amended): merge_finish before any push fails immediately (the
index of `subtrees[0]` is out of bounds), but push_subtree performs no
length validation: a push of length 0 or greater than CHUNK_SIZE is
silently accepted. -/
theorem claim_C9 (b2b : B2b) (x : Hash) :
    merge_finish b2b State.new = none ∧
    (push_subtree b2b State.new x 0).isSome = true ∧
    (push_subtree b2b State.new x (CHUNK_SIZE + 1)).isSome = true := by
  refine ⟨rfl, ?_, ?_⟩ <;>
  · simp only [push_subtree, merge_loop_stop b2b State.new (by decide)]
    rfl

/-- C10: the 8-byte little-endian length encoding and its decoder round
trip on every u64 value. -/
theorem claim_C10 (x : Nat) (h : x < 2 ^ 64) : decode_len (encode_len x) = x := by
  unfold decode_len encode_len
  norm_num
  omega

/-- Witness for C10 at a concrete value. -/
theorem claim_C10_witness : decode_len (encode_len 123456789) = 123456789 :=
  claim_C10 123456789 (by norm_num)

end Bao
